import Mathlib

/-!
Verification of the wordle solver engine (`players/super_wordle_bot.py`)
and the driver's feedback routine (`utils.py`) of `wollm/perfect_wordle_player`.

Python strings are modelled as `String` / `List Char`; Python `None` markers
inside the mutable letter lists are modelled with `Option Char`; a Python
function that can raise an exception is modelled with `Option`/`Except`
(`none` / `.error` = the call raises).
-/

namespace Wordle

/-! ### `compute_feedback` (players/super_wordle_bot.py, lines 19-66)

The Python code turns both words into mutable lists, marks exact matches
with `None` in both lists (writing 2 into `result`), then walks the guess
left to right and, for each still-unmatched guess letter contained in the
remaining solution list, writes 1 into `result` and `None`s out the first
matching solution entry.  `result` positions never touched stay 0.
-/

/-- `solution_list[solution_list.index(c)] = None`: blank out the first
occurrence of letter `c` in the partially consumed solution list. -/
def eraseFirst : List (Option Char) → Char → List (Option Char)
  | [], _ => []
  | x :: xs, c => if x = some c then none :: xs else x :: eraseFirst xs c

/-- First pass of `compute_feedback`: walk the paired positions; an exact
match contributes feedback 2 and `None`s out both letters, any other
position contributes feedback 0 and keeps both letters.  Solution letters
beyond the paired prefix survive untouched (the Python membership test of
pass 2 ranges over the whole `solution_list`). -/
def pass1 : List Char → List Char → List ℕ × List (Option Char) × List (Option Char)
  | g :: gs, s :: ss =>
    let t := pass1 gs ss
    if g = s then (2 :: t.1, none :: t.2.1, none :: t.2.2)
    else (0 :: t.1, some g :: t.2.1, some s :: t.2.2)
  | [], ss => ([], [], ss.map some)
  | _ :: _, [] => ([], [], [])

/-- Second pass of `compute_feedback`: for each guess position not consumed
by pass 1, if the letter still occurs in the remaining solution list the
feedback becomes 1 and that solution entry is consumed. -/
def pass2 : List (Option Char) → List ℕ → List (Option Char) → List ℕ
  | og :: ogs, r :: rs, sol =>
    match og with
    | none => r :: pass2 ogs rs sol
    | some c =>
      if some c ∈ sol then 1 :: pass2 ogs rs (eraseFirst sol c)
      else r :: pass2 ogs rs sol
  | _, _, _ => []

/-- The two passes of `compute_feedback` over already-listified words. -/
def feedback5 (guess_list solution_list : List Char) : List ℕ :=
  let t := pass1 guess_list solution_list
  pass2 t.2.1 t.1 t.2.2

/-- `compute_feedback(guess_word, solution_word)` from
players/super_wordle_bot.py.  Both passes range over `range(5)`, so the
call raises `IndexError` (modelled as `none`) exactly when either word is
shorter than five letters; guess letters beyond position four are never
read, while the full solution list participates in the pass-2 membership
test. -/
def compute_feedback (guess_word solution_word : String) : Option (List ℕ) :=
  if guess_word.length < 5 ∨ solution_word.length < 5 then none
  else some (feedback5 (guess_word.toList.take 5) solution_word.toList)

/-! ### `get_feedback` (utils.py, lines 20-63)

The driver checks the two lengths, lowercases both words, marks exact
positions with 2, collects the non-exact secret letters into the string
`letters`, and then upgrades each non-exact guess position whose letter
still occurs in `letters` to 1, deleting the first occurrence from
`letters`. -/

/-- `letters = letters[:j] + letters[j+1:]`: delete the first occurrence
of `c`. -/
def removeFirst : List Char → Char → List Char
  | [], _ => []
  | x :: xs, c => if x = c then xs else x :: removeFirst xs c

/-- The exact-match loop of `get_feedback`. -/
def gfPass1 : List Char → List Char → List ℕ
  | g :: gs, s :: ss => (if g = s then 2 else 0) :: gfPass1 gs ss
  | _, _ => []

/-- `letters = ''.join(letter for letter, match in zip(secret, feedback) if not match)`. -/
def gfLetters : List Char → List ℕ → List Char
  | s :: ss, f :: fs => if f = 0 then s :: gfLetters ss fs else gfLetters ss fs
  | _, _ => []

/-- The almost-correct loop of `get_feedback`. -/
def gfPass2 : List Char → List ℕ → List Char → List ℕ
  | g :: gs, f :: fs, letters =>
    if f ≠ 2 ∧ g ∈ letters then 1 :: gfPass2 gs fs (removeFirst letters g)
    else f :: gfPass2 gs fs letters
  | _, _, _ => []

/-- `get_feedback(guess, secret)` from utils.py.  A length mismatch raises
`ValueError` before any pattern work; otherwise both words are lowercased
and the two loops run.  (`Char.toLower`, like Python's `str.lower` on the
ASCII alphabet this repository uses, only moves `A`-`Z` to `a`-`z`.) -/
def get_feedback (guess secret : String) : Except String (List ℕ) :=
  if guess.length ≠ secret.length then Except.error "length of inputs must be equal"
  else
    let g := guess.toList.map Char.toLower
    let s := secret.toList.map Char.toLower
    let f := gfPass1 g s
    Except.ok (gfPass2 g f (gfLetters s f))

/-! ### `is_consistent` (players/super_wordle_bot.py, lines 69-100) -/

/-- `is_consistent(candidate_word, guesses, feedback)`: simulate the
feedback each recorded guess would have produced were `candidate_word`
the solution and compare with the recorded pattern, rejecting on the
first mismatch.  `none` models an exception (a `compute_feedback`
`IndexError`, or `feedback[i]` running past the end of the list). -/
def is_consistent (candidate_word : String) : List String → List (List ℕ) → Option Bool
  | [], _ => some true
  | guess :: gs, f :: fs =>
    match compute_feedback guess candidate_word with
    | none => none
    | some hypothetical_feedback =>
      if hypothetical_feedback ≠ f then some false
      else is_consistent candidate_word gs fs
  | _ :: _, [] => none

/-! ### `calculate_entropy` (players/super_wordle_bot.py, lines 103-148) -/

/-- One iteration of the histogram loop: bump the count of pattern `p`,
appending a fresh `(p, 1)` entry when the key is new (Python dict
insertion order). -/
def addPattern (pattern_counts : List (List ℕ × ℕ)) (p : List ℕ) : List (List ℕ × ℕ) :=
  if p ∈ pattern_counts.map Prod.fst then
    pattern_counts.map (fun x => if x.1 = p then (x.1, x.2 + 1) else x)
  else pattern_counts ++ [(p, 1)]

/-- The histogram loop of `calculate_entropy`: feedback of `guess_word`
against every possible solution, tallied by pattern.  `none` models a
`compute_feedback` exception escaping the loop. -/
def patternCountsLoop (guess_word : String) :
    List String → List (List ℕ × ℕ) → Option (List (List ℕ × ℕ))
  | [], pattern_counts => some pattern_counts
  | s :: ss, pattern_counts =>
    match compute_feedback guess_word s with
    | none => none
    | some p => patternCountsLoop guess_word ss (addPattern pattern_counts p)

/-- The summation loop of `calculate_entropy`:
`entropy -= probability * log2(probability)` over the histogram buckets,
with `probability = count / total`. -/
noncomputable def entropyOfCounts (pattern_counts : List (List ℕ × ℕ)) (total : ℕ) : ℝ :=
  pattern_counts.foldl
    (fun entropy x => entropy - (x.2 : ℝ) / (total : ℝ) * Real.logb 2 ((x.2 : ℝ) / (total : ℝ)))
    0

/-- `calculate_entropy(guess_word, possible_solutions)`: Shannon entropy in
bits of the feedback-pattern distribution `guess_word` induces over
`possible_solutions`. -/
noncomputable def calculate_entropy (guess_word : String) (possible_solutions : List String) :
    Option ℝ :=
  match patternCountsLoop guess_word possible_solutions [] with
  | none => none
  | some pattern_counts => some (entropyOfCounts pattern_counts possible_solutions.length)

/-- The value of a defined entropy computation (used to state selection
properties; equals the unique `e` with `calculate_entropy g sols = some e`
when the computation succeeds). -/
noncomputable def entropyVal (g : String) (sols : List String) : ℝ :=
  (calculate_entropy g sols).getD 0

/-! ### `choice` (players/super_wordle_bot.py, lines 151-202) -/

/-- The list comprehension filtering the vocabulary through
`is_consistent`; `none` models an exception escaping the comprehension. -/
def filterConsistent (guesses : List String) (feedback : List (List ℕ)) :
    List String → Option (List String)
  | [] => some []
  | w :: ws =>
    match is_consistent w guesses feedback with
    | none => none
    | some b =>
      match filterConsistent guesses feedback ws with
      | none => none
      | some rest => some (if b then w :: rest else rest)

/-- The entropy-maximisation loop of `choice`, carrying `best_guess`
(initially Python `None`) and `best_entropy` (initially `-1`). -/
noncomputable def bestLoop (possible_solutions : List String) :
    List String → Option String → ℝ → Option (Option String × ℝ)
  | [], best_guess, best_entropy => some (best_guess, best_entropy)
  | candidate :: cs, best_guess, best_entropy =>
    match calculate_entropy candidate possible_solutions with
    | none => none
    | some entropy =>
      if entropy > best_entropy then bestLoop possible_solutions cs (some candidate) entropy
      else bestLoop possible_solutions cs best_guess best_entropy

/-- `choice(vocabulary, guesses, feedback)`.  The outer `Option` models an
exception escaping the call; the inner `Option String` is the returned
value (`some w` = the string `w`, `none` = Python's `None`, which the loop
returns unchanged when it never finds a candidate whose entropy beats
`-1`, i.e. when the scored pool is empty). -/
noncomputable def choice (vocabulary guesses : List String) (feedback : List (List ℕ)) :
    Option (Option String) :=
  if guesses.isEmpty then some (some "SOARE")
  else
    match filterConsistent guesses feedback vocabulary with
    | none => none
    | some possible_solutions =>
      if possible_solutions.length = 1 then some possible_solutions.head?
      else
        let candidate_guesses := if guesses.length < 5 then vocabulary else possible_solutions
        match bestLoop possible_solutions candidate_guesses none (-1) with
        | none => none
        | some (best_guess, _) => some best_guess

/-! ### Reference model of the spec's two-pass algorithm (spec §4.1)

For the refinement claim about `compute_feedback`, the algorithm is
restated from the spec's own words: an exact pass builds the multiset of
solution letters whose positions were not exact, then a present pass walks
the non-exact guess positions left to right, marking `Present` and
decrementing the multiplicity when the letter is still available. -/

/-- The remaining multiset after the spec's exact pass: every solution
letter whose position was not an exact match (each exact match removed
exactly one copy of its letter). -/
def specRemaining (g s : List Char) : Multiset Char :=
  ↑((List.zip s g).filterMap fun x => if x.1 = x.2 then none else some x.1)

/-- The spec's present pass: non-exact guess positions in left-to-right
order; `Present` (1) with a decrement when the multiset still holds the
letter, `Absent` (0) otherwise; exact positions keep their 2. -/
def specPass2 : List Char → List Char → Multiset Char → List ℕ
  | gc :: gs, sc :: ss, m =>
    if gc = sc then 2 :: specPass2 gs ss m
    else if gc ∈ m then 1 :: specPass2 gs ss (m.erase gc)
    else 0 :: specPass2 gs ss m
  | _, _, _ => []

/-- The spec's two-pass reference feedback algorithm. -/
def spec_feedback (g s : List Char) : List ℕ :=
  specPass2 g s (specRemaining g s)

/-! ### Bridging lemmas between the three feedback formulations -/

/-- The guess mask after pass 1, expressed through the feedback values:
a position is consumed (`none`) exactly when its feedback is 2. -/
def maskG (g : List Char) (r : List ℕ) : List (Option Char) :=
  List.zipWith (fun c f => if f = (2 : ℕ) then none else some c) g r

theorem mem_filterMap_id (c : Char) (sol : List (Option Char)) :
    c ∈ sol.filterMap id ↔ some c ∈ sol := by
  simp [List.mem_filterMap]

theorem filterMap_eraseFirst (c : Char) :
    ∀ sol : List (Option Char),
      (eraseFirst sol c).filterMap id = removeFirst (sol.filterMap id) c
  | [] => rfl
  | none :: xs => by
    simp [eraseFirst, filterMap_eraseFirst c xs]
  | some d :: xs => by
    by_cases h : d = c
    · subst h
      simp [eraseFirst, removeFirst]
    · simp [eraseFirst, removeFirst, h, Option.some_inj, filterMap_eraseFirst c xs]

theorem pass1_fst : ∀ g s : List Char, (pass1 g s).1 = gfPass1 g s
  | [], s => by cases s <;> simp [pass1, gfPass1]
  | g :: gs, [] => by simp [pass1, gfPass1]
  | g :: gs, s :: ss => by
    by_cases h : g = s <;> simp [pass1, gfPass1, h, pass1_fst gs ss]

theorem pass1_snd1 : ∀ g s : List Char, (pass1 g s).2.1 = maskG g (gfPass1 g s)
  | [], s => by cases s <;> simp [pass1, gfPass1, maskG]
  | g :: gs, [] => by simp [pass1, gfPass1, maskG]
  | g :: gs, s :: ss => by
    by_cases h : g = s <;> simp [pass1, gfPass1, maskG, h, pass1_snd1 gs ss]

theorem pass1_letters : ∀ g s : List Char, g.length = s.length →
    ((pass1 g s).2.2).filterMap id = gfLetters s (gfPass1 g s)
  | [], [], _ => rfl
  | g :: gs, s :: ss, h => by
    have h' : gs.length = ss.length := by simpa using h
    by_cases hgs : g = s <;>
      simp [pass1, gfPass1, gfLetters, hgs, pass1_letters gs ss h']

theorem pass2_eq : ∀ (g : List Char) (r : List ℕ) (sol : List (Option Char)),
    pass2 (maskG g r) r sol = gfPass2 g r (sol.filterMap id)
  | [], r, sol => by simp [maskG, pass2, gfPass2]
  | g :: gs, [], sol => by simp [maskG, pass2, gfPass2]
  | g :: gs, f :: fs, sol => by
    by_cases hf : f = 2
    · simp [maskG, pass2, gfPass2, hf]
      simpa [maskG] using pass2_eq gs fs sol
    · by_cases hm : some g ∈ sol
      · simp [maskG, pass2, gfPass2, hf, hm, (mem_filterMap_id g sol).2 hm]
        simpa [maskG, filterMap_eraseFirst] using pass2_eq gs fs (eraseFirst sol g)
      · have hmf : ¬ g ∈ sol.filterMap id := fun h => hm ((mem_filterMap_id g sol).1 h)
        simp [maskG, pass2, gfPass2, hf, hm, hmf]
        simpa [maskG] using pass2_eq gs fs sol

/-- On equal-length letter lists the engine's two passes compute the same
pattern as the driver's two loops. -/
theorem feedback5_eq_gf (g s : List Char) (h : g.length = s.length) :
    feedback5 g s = gfPass2 g (gfPass1 g s) (gfLetters s (gfPass1 g s)) := by
  have hdef : feedback5 g s = pass2 (pass1 g s).2.1 (pass1 g s).1 (pass1 g s).2.2 := rfl
  rw [hdef, pass1_fst, pass1_snd1, pass2_eq, pass1_letters g s h]

theorem removeFirst_eq_erase (c : Char) :
    ∀ l : List Char, removeFirst l c = l.erase c
  | [] => rfl
  | x :: xs => by
    by_cases h : x = c
    · simp [removeFirst, h, List.erase_cons]
    · simp [removeFirst, h, List.erase_cons, removeFirst_eq_erase c xs]

theorem specPass2_coe : ∀ (g s : List Char) (l : List Char),
    specPass2 g s ↑l = gfPass2 g (gfPass1 g s) l
  | [], s, l => by cases s <;> simp [specPass2, gfPass1, gfPass2]
  | g :: gs, [], l => by simp [specPass2, gfPass1, gfPass2]
  | g :: gs, s :: ss, l => by
    by_cases hgs : g = s
    · simp [specPass2, gfPass1, gfPass2, hgs, specPass2_coe gs ss l]
    · by_cases hm : g ∈ l
      · have hce : (↑l : Multiset Char).erase g = ↑(l.erase g) := Multiset.coe_erase l g
        simp [specPass2, gfPass1, gfPass2, hgs, hm, hce, removeFirst_eq_erase,
          specPass2_coe gs ss (l.erase g)]
      · simp [specPass2, gfPass1, gfPass2, hgs, hm, specPass2_coe gs ss l]

theorem specRemaining_eq_letters : ∀ g s : List Char, g.length = s.length →
    specRemaining g s = ↑(gfLetters s (gfPass1 g s))
  | [], [], _ => rfl
  | g :: gs, s :: ss, h => by
    have h' : gs.length = ss.length := by simpa using h
    have ih := specRemaining_eq_letters gs ss h'
    by_cases hgs : g = s
    · simp [specRemaining, gfLetters, gfPass1, hgs] at ih ⊢
      simpa [specRemaining] using ih
    · have hsg : ¬ s = g := fun hh => hgs hh.symm
      simp [specRemaining, gfLetters, gfPass1, hgs, hsg] at ih ⊢
      simpa [specRemaining] using ih

/-- On equal-length letter lists the engine's two passes agree with the
spec's multiset-based reference algorithm. -/
theorem feedback5_eq_spec (g s : List Char) (h : g.length = s.length) :
    feedback5 g s = spec_feedback g s := by
  rw [feedback5_eq_gf g s h, spec_feedback, specRemaining_eq_letters g s h, specPass2_coe]

theorem toList_length (s : String) : s.toList.length = s.length := rfl

/-- On five-letter words no `IndexError` occurs and `compute_feedback` is
the pure two-pass computation over the full letter lists. -/
theorem compute_feedback_eq_feedback5 (g s : String) (hg : g.length = 5) (hs : s.length = 5) :
    compute_feedback g s = some (feedback5 g.toList s.toList) := by
  have h5 : ¬ (g.length < 5 ∨ s.length < 5) := by omega
  have htake : g.toList.take 5 = g.toList := by
    apply List.take_of_length_le
    rw [toList_length, hg]
  rw [compute_feedback, if_neg h5, htake]

/-- C1: on every pair of 5-letter words `compute_feedback` produces the
pattern of the spec's two-pass reference algorithm (exact pass removing
the matched solution letters from the multiset, then a left-to-right
present pass decrementing remaining multiplicities); in particular
`compute_feedback("ADIEU","DIALS") = [1,1,1,0,0]`. -/
theorem C1_compute_feedback_matches_two_pass_spec :
    (∀ g s : String, g.length = 5 → s.length = 5 →
      compute_feedback g s = some (spec_feedback g.toList s.toList)) ∧
    compute_feedback "ADIEU" "DIALS" = some [1, 1, 1, 0, 0] := by
  constructor
  · intro g s hg hs
    rw [compute_feedback_eq_feedback5 g s hg hs,
      feedback5_eq_spec _ _ (by rw [toList_length, toList_length, hg, hs])]
  · decide

theorem C1_compute_feedback_matches_two_pass_spec_witness :
    String.length "ROBOT" = 5 ∧
    compute_feedback "ROBOT" "BOUND" = some (spec_feedback "ROBOT".toList "BOUND".toList) :=
  ⟨rfl, C1_compute_feedback_matches_two_pass_spec.1 "ROBOT" "BOUND" rfl rfl⟩

/-- C6 counterexample: the claim "for every guess and solution whose
lengths differ (or differ from L=5), the feedback computation detects
this and reports a LengthMismatch error before any pattern computation"
is false on the code: `get_feedback` happily computes a pattern for two
3-letter words (lengths differ from 5; this is even one of the code's own
test cases), and `compute_feedback` computes a full pattern for a
6-letter guess against a 5-letter solution (lengths differ). -/
theorem C6_counterexample :
    get_feedback "ABC" "XYZ" = Except.ok [0, 0, 0] ∧
    compute_feedback "ABCDEF" "ABCDE" = some [2, 2, 2, 2, 2] :=
  ⟨rfl, by decide⟩

/-- C6 (amended): only the driver's `get_feedback` length-checks, and it
checks only that the two lengths are equal — a `ValueError` is raised
before any pattern computation exactly when the lengths differ, while
equal lengths (5 or not) always produce a pattern.  The engine's
`compute_feedback` performs no length check at all: it raises (an
`IndexError`, not a length error) precisely when either word is shorter
than five letters, and otherwise computes a pattern over the first five
guess positions even for over-long words. -/
theorem C6_length_mismatch_handling (g s : String) :
    (g.length ≠ s.length → get_feedback g s = Except.error "length of inputs must be equal") ∧
    (g.length = s.length → ∃ p, get_feedback g s = Except.ok p) ∧
    (compute_feedback g s = none ↔ g.length < 5 ∨ s.length < 5) := by
  refine ⟨fun h => by rw [get_feedback, if_pos h],
    fun h => ⟨_, by rw [get_feedback, if_neg (by omega)]⟩, ?_⟩
  by_cases hlt : g.length < 5 ∨ s.length < 5 <;> simp [compute_feedback, hlt]

theorem C6_length_mismatch_handling_witness :
    String.length "AB" ≠ String.length "ABC" ∧
    get_feedback "AB" "ABC" = Except.error "length of inputs must be equal" :=
  ⟨by decide, (C6_length_mismatch_handling "AB" "ABC").1 (by decide)⟩

/-! ### Case-normalisation: `feedback5` is invariant under any letter map
that is injective on the letters actually present -/

theorem eraseFirst_subset (c d : Char) :
    ∀ sol : List (Option Char), some d ∈ eraseFirst sol c → some d ∈ sol
  | [] => by simp [eraseFirst]
  | x :: xs => by
    by_cases h : x = some c <;>
      simp only [eraseFirst, h, if_true, if_false, List.mem_cons] <;>
      rintro (h' | h')
    · exact absurd h' (by simp)
    · exact Or.inr h'
    · exact Or.inl h'
    · exact Or.inr (eraseFirst_subset c d xs h')

theorem pass1_mem_guess : ∀ (g s : List Char) (d : Char),
    some d ∈ (pass1 g s).2.1 → d ∈ g
  | [], s, d => by cases s <;> simp [pass1]
  | g :: gs, [], d => by simp [pass1]
  | g :: gs, s :: ss, d => by
    by_cases h : g = s <;> simp [pass1, h] <;> intro h'
    · exact Or.inr (pass1_mem_guess gs ss d h')
    · rcases h' with h' | h'
      · exact Or.inl h'
      · exact Or.inr (pass1_mem_guess gs ss d h')

theorem pass1_mem_sol : ∀ (g s : List Char) (d : Char),
    some d ∈ (pass1 g s).2.2 → d ∈ s
  | [], s, d => by cases s <;> simp [pass1]
  | g :: gs, [], d => by simp [pass1]
  | g :: gs, s :: ss, d => by
    by_cases h : g = s <;> simp [pass1, h] <;> intro h'
    · exact Or.inr (pass1_mem_sol gs ss d h')
    · rcases h' with h' | h'
      · exact Or.inl h'
      · exact Or.inr (pass1_mem_sol gs ss d h')

theorem pass1_map (f : Char → Char) (P : Char → Prop)
    (hf : ∀ a b, P a → P b → f a = f b → a = b) :
    ∀ g s : List Char, (∀ c ∈ g, P c) → (∀ c ∈ s, P c) →
      pass1 (g.map f) (s.map f) =
        ((pass1 g s).1, (pass1 g s).2.1.map (Option.map f),
          (pass1 g s).2.2.map (Option.map f))
  | [], s, _, _ => by simp [pass1, List.map_map]
  | g :: gs, [], _, _ => by simp [pass1]
  | g :: gs, s :: ss, hg, hs => by
    have ih := pass1_map f P hf gs ss (fun c hc => hg c (List.mem_cons_of_mem _ hc))
      (fun c hc => hs c (List.mem_cons_of_mem _ hc))
    by_cases h : g = s
    · subst h
      simp [pass1, ih]
    · have hne : f g ≠ f s := fun he =>
        h (hf g s (hg g (List.mem_cons_self _ _)) (hs s (List.mem_cons_self _ _)) he)

      simp [pass1, h, hne, ih]

theorem eraseFirst_map (f : Char → Char) (P : Char → Prop)
    (hf : ∀ a b, P a → P b → f a = f b → a = b) :
    ∀ (sol : List (Option Char)) (c : Char),
      (∀ d, some d ∈ sol → P d) → P c →
      eraseFirst (sol.map (Option.map f)) (f c) = (eraseFirst sol c).map (Option.map f)
  | [], c, _, _ => rfl
  | none :: xs, c, hsol, hc => by
    have ih := eraseFirst_map f P hf xs c (fun d hd => hsol d (List.mem_cons_of_mem _ hd)) hc
    simp [eraseFirst, ih]
  | some d :: xs, c, hsol, hc => by
    have hd : P d := hsol d (List.mem_cons_self _ _)
    by_cases h : d = c
    · subst h
      simp [eraseFirst]
    · have hne : f d ≠ f c := fun he => h (hf d c hd hc he)
      have ih := eraseFirst_map f P hf xs c (fun e he => hsol e (List.mem_cons_of_mem _ he)) hc
      simp [eraseFirst, h, hne, ih]

theorem mem_map_opt (f : Char → Char) (P : Char → Prop)
    (hf : ∀ a b, P a → P b → f a = f b → a = b)
    (sol : List (Option Char)) (c : Char)
    (hsol : ∀ d, some d ∈ sol → P d) (hc : P c) :
    some (f c) ∈ sol.map (Option.map f) ↔ some c ∈ sol := by
  simp only [List.mem_map]
  constructor
  · rintro ⟨x, hx, hmap⟩
    match x with
    | none => simp [Option.map] at hmap
    | some d =>
      have : f d = f c := by simpa using hmap
      have : d = c := hf d c (hsol d hx) hc this
      subst this
      exact hx
  · intro h
    exact ⟨some c, h, rfl⟩

theorem pass2_map (f : Char → Char) (P : Char → Prop)
    (hf : ∀ a b, P a → P b → f a = f b → a = b) :
    ∀ (og : List (Option Char)) (r : List ℕ) (sol : List (Option Char)),
      (∀ d, some d ∈ og → P d) → (∀ d, some d ∈ sol → P d) →
      pass2 (og.map (Option.map f)) r (sol.map (Option.map f)) = pass2 og r sol
  | [], r, sol, _, _ => by simp [pass2]
  | x :: ogs, [], sol, _, _ => by simp [pass2]
  | none :: ogs, rr :: rs, sol, hog, hsol => by
    have ih := pass2_map f P hf ogs rs sol (fun d hd => hog d (List.mem_cons_of_mem _ hd)) hsol
    simp [pass2, ih]
  | some c :: ogs, rr :: rs, sol, hog, hsol => by
    have hc : P c := hog c (List.mem_cons_self _ _)
    have hog' : ∀ d, some d ∈ ogs → P d := fun d hd => hog d (List.mem_cons_of_mem _ hd)
    have hmem := mem_map_opt f P hf sol c hsol hc
    by_cases h : some c ∈ sol
    · have ih := pass2_map f P hf ogs rs (eraseFirst sol c) hog'
        (fun d hd => hsol d (eraseFirst_subset c d sol hd))
      simp [pass2, h, hmem.2 h, eraseFirst_map f P hf sol c hsol hc, ih]
    · have : ¬ some (f c) ∈ sol.map (Option.map f) := fun hh => h (hmem.1 hh)
      have ih := pass2_map f P hf ogs rs sol hog' hsol
      simp [pass2, h, this, ih]

/-- Mapping both words through a letter map that is injective on their
letters leaves the engine's feedback pattern unchanged. -/
theorem feedback5_map (f : Char → Char) (P : Char → Prop)
    (hf : ∀ a b, P a → P b → f a = f b → a = b)
    (g s : List Char) (hg : ∀ c ∈ g, P c) (hs : ∀ c ∈ s, P c) :
    feedback5 (g.map f) (s.map f) = feedback5 g s := by
  have h1 := pass1_map f P hf g s hg hs
  have e1 : (pass1 (g.map f) (s.map f)).1 = (pass1 g s).1 := by rw [h1]
  have e2 : (pass1 (g.map f) (s.map f)).2.1 = (pass1 g s).2.1.map (Option.map f) := by rw [h1]
  have e3 : (pass1 (g.map f) (s.map f)).2.2 = (pass1 g s).2.2.map (Option.map f) := by rw [h1]
  have hdefm : feedback5 (g.map f) (s.map f) =
      pass2 (pass1 (g.map f) (s.map f)).2.1 (pass1 (g.map f) (s.map f)).1
        (pass1 (g.map f) (s.map f)).2.2 := rfl
  have hdef : feedback5 g s = pass2 (pass1 g s).2.1 (pass1 g s).1 (pass1 g s).2.2 := rfl
  rw [hdefm, hdef, e1, e2, e3]
  exact pass2_map f P hf _ _ _
    (fun d hd => hg d (pass1_mem_guess g s d hd))
    (fun d hd => hs d (pass1_mem_sol g s d hd))

/-- A word over the uppercase ASCII alphabet `A`-`Z` (code points 65-90). -/
def upperWord (w : String) : Prop := ∀ c ∈ w.toList, 65 ≤ c.toNat ∧ c.toNat ≤ 90

/-- A word over the lowercase ASCII alphabet `a`-`z` (code points 97-122). -/
def lowerWord (w : String) : Prop := ∀ c ∈ w.toList, 97 ≤ c.toNat ∧ c.toNat ≤ 122

instance (w : String) : Decidable (upperWord w) := by unfold upperWord; infer_instance

instance (w : String) : Decidable (lowerWord w) := by unfold lowerWord; infer_instance

theorem char_toNat_inj {c d : Char} (h : c.toNat = d.toNat) : c = d :=
  Char.eq_of_val_eq (UInt32.toNat.inj h)

theorem char_toNat_ofNat {n : ℕ} (h : n.isValidChar) : (Char.ofNat n).toNat = n := by
  rw [Char.ofNat, dif_pos h]
  rfl

theorem toLower_toNat_of_upper {c : Char} (h : 65 ≤ c.toNat ∧ c.toNat ≤ 90) :
    (Char.toLower c).toNat = c.toNat + 32 := by
  have hv : (c.toNat + 32).isValidChar := Or.inl (by omega)
  show ((if c.toNat ≥ 65 ∧ c.toNat ≤ 90 then Char.ofNat (c.toNat + 32) else c)).toNat = _
  rw [if_pos ⟨h.1, h.2⟩, char_toNat_ofNat hv]

theorem toLower_eq_self_of_lower {c : Char} (h : 97 ≤ c.toNat ∧ c.toNat ≤ 122) :
    Char.toLower c = c := by
  show (if c.toNat ≥ 65 ∧ c.toNat ≤ 90 then Char.ofNat (c.toNat + 32) else c) = c
  rw [if_neg (by omega)]

theorem toLower_inj_on_upper :
    ∀ a b : Char, (65 ≤ a.toNat ∧ a.toNat ≤ 90) → (65 ≤ b.toNat ∧ b.toNat ≤ 90) →
      Char.toLower a = Char.toLower b → a = b := by
  intro a b ha hb h
  have h1 := toLower_toNat_of_upper ha
  have h2 := toLower_toNat_of_upper hb
  apply char_toNat_inj
  have : a.toNat + 32 = b.toNat + 32 := by rw [← h1, ← h2, h]
  omega

/-- C9: on every pair of five-letter words drawn from a single-case
alphabet (both uppercase or both lowercase), the engine's
`compute_feedback` and the driver's `get_feedback` return the same
feedback pattern. -/
theorem C9_compute_feedback_agrees_with_get_feedback (g s : String)
    (hg : g.length = 5) (hs : s.length = 5)
    (hcase : (upperWord g ∧ upperWord s) ∨ (lowerWord g ∧ lowerWord s)) :
    ∃ p, compute_feedback g s = some p ∧ get_feedback g s = Except.ok p := by
  refine ⟨feedback5 g.toList s.toList, compute_feedback_eq_feedback5 g s hg hs, ?_⟩
  have hne : ¬ g.length ≠ s.length := by omega
  rw [get_feedback, if_neg hne]
  have hlow : feedback5 (g.toList.map Char.toLower) (s.toList.map Char.toLower) =
      feedback5 g.toList s.toList := by
    rcases hcase with ⟨hug, hus⟩ | ⟨hlg, hls⟩
    · exact feedback5_map Char.toLower (fun c => 65 ≤ c.toNat ∧ c.toNat ≤ 90)
        toLower_inj_on_upper g.toList s.toList hug hus
    · have hmg : g.toList.map Char.toLower = g.toList := by
        rw [List.map_congr_left fun c hc => toLower_eq_self_of_lower (hlg c hc), List.map_id']
      have hms : s.toList.map Char.toLower = s.toList := by
        rw [List.map_congr_left fun c hc => toLower_eq_self_of_lower (hls c hc), List.map_id']
      rw [hmg, hms]
  have hlen : (g.toList.map Char.toLower).length = (s.toList.map Char.toLower).length := by
    simp [toList_length, hg, hs]
  show Except.ok (gfPass2 (g.toList.map Char.toLower)
      (gfPass1 (g.toList.map Char.toLower) (s.toList.map Char.toLower))
      (gfLetters (s.toList.map Char.toLower)
        (gfPass1 (g.toList.map Char.toLower) (s.toList.map Char.toLower)))) =
    Except.ok (feedback5 g.toList s.toList)
  rw [← feedback5_eq_gf _ _ hlen, hlow]

theorem C9_compute_feedback_agrees_with_get_feedback_witness :
    upperWord "ROBOT" ∧
    (∃ p, compute_feedback "ROBOT" "BOUND" = some p ∧
      get_feedback "ROBOT" "BOUND" = Except.ok p) :=
  ⟨by decide, C9_compute_feedback_agrees_with_get_feedback "ROBOT" "BOUND" rfl rfl
    (Or.inl ⟨by decide, by decide⟩)⟩

/-! ### C4: characterisation of `is_consistent` -/

theorem is_consistent_iff :
    ∀ (guesses : List String) (fb : List (List ℕ)) (cand : String),
      cand.length = 5 → (∀ g ∈ guesses, g.length = 5) → guesses.length = fb.length →
      (is_consistent cand guesses fb = some true ↔
        ∀ p ∈ guesses.zip fb, compute_feedback p.1 cand = some p.2)
  | [], fb, cand, _, _, _ => by simp [is_consistent]
  | g :: gs, [], cand, _, _, hlen => by simp at hlen
  | g :: gs, f :: fs, cand, hc, hg, hlen => by
    have hg5 : g.length = 5 := hg g (List.mem_cons_self _ _)
    have hcf := compute_feedback_eq_feedback5 g cand hg5 hc
    have ih := is_consistent_iff gs fs cand hc
      (fun w hw => hg w (List.mem_cons_of_mem _ hw)) (by simpa using hlen)
    have hstep : is_consistent cand (g :: gs) (f :: fs) =
        if feedback5 g.toList cand.toList ≠ f then some false
        else is_consistent cand gs fs := by
      simp [is_consistent, hcf]
    by_cases hne : feedback5 g.toList cand.toList ≠ f
    · rw [hstep, if_pos hne]
      refine iff_of_false (by simp) fun hall => hne ?_
      have := hall (g, f) (by rw [List.zip_cons_cons]; exact List.mem_cons_self _ _)
      rw [hcf] at this
      exact Option.some.inj this
    · have hf : feedback5 g.toList cand.toList = f := not_ne_iff.mp hne
      rw [hstep, if_neg hne, ih]
      constructor
      · rintro htail p hp
        rw [List.zip_cons_cons, List.mem_cons] at hp
        rcases hp with rfl | hp
        · rw [hcf, hf]
        · exact htail p hp
      · intro hall p hp
        exact hall p (by rw [List.zip_cons_cons, List.mem_cons]; exact Or.inr hp)

/-- C4: for a five-letter candidate and a history of five-letter guesses
with index-aligned feedback, `is_consistent` answers `true` exactly when
every recorded pattern equals the feedback the guess would produce were
the candidate the solution; it is vacuously true on an empty history, and
in particular the true solution is always consistent with the history
generated from it. -/
theorem C4_is_consistent_characterisation :
    (∀ (cand : String) (guesses : List String) (fb : List (List ℕ)),
      cand.length = 5 → (∀ g ∈ guesses, g.length = 5) → guesses.length = fb.length →
      (is_consistent cand guesses fb = some true ↔
        ∀ p ∈ guesses.zip fb, compute_feedback p.1 cand = some p.2)) ∧
    (∀ cand : String, is_consistent cand [] [] = some true) ∧
    (∀ (sol : String) (guesses : List String) (fb : List (List ℕ)),
      sol.length = 5 → (∀ g ∈ guesses, g.length = 5) → guesses.length = fb.length →
      (∀ p ∈ guesses.zip fb, compute_feedback p.1 sol = some p.2) →
      is_consistent sol guesses fb = some true) := by
  refine ⟨fun c gs fb hc hg hl => is_consistent_iff gs fb c hc hg hl, fun c => rfl, ?_⟩
  intro sol gs fb hs hg hl hgen
  exact (is_consistent_iff gs fb sol hs hg hl).2 hgen

theorem C4_is_consistent_characterisation_witness :
    String.length "AAAAA" = 5 ∧
    (is_consistent "AAAAA" ["ABBBB"] [[2, 0, 0, 0, 0]] = some true ↔
      ∀ p ∈ List.zip ["ABBBB"] [[2, 0, 0, 0, 0]],
        compute_feedback p.1 "AAAAA" = some p.2) :=
  ⟨rfl, C4_is_consistent_characterisation.1 "AAAAA" ["ABBBB"] [[2, 0, 0, 0, 0]] rfl
    (by decide) rfl⟩

/-! ### Histogram invariants of the entropy computation -/

/-- Total number of tallied solutions in a histogram. -/
def countsSum (counts : List (List ℕ × ℕ)) : ℕ := (counts.map Prod.snd).sum

/-- The invariant of the histogram: pattern keys are pairwise distinct and
every bucket holds at least one solution. -/
def goodCounts (counts : List (List ℕ × ℕ)) : Prop :=
  (counts.map Prod.fst).Nodup ∧ ∀ x ∈ counts, 1 ≤ x.2

theorem bump_map_id (p : List ℕ) (counts : List (List ℕ × ℕ))
    (h : ∀ x ∈ counts, x.1 ≠ p) :
    counts.map (fun x => if x.1 = p then (x.1, x.2 + 1) else x) = counts := by
  rw [List.map_congr_left fun x hx => if_neg (h x hx), List.map_id']

theorem bump_fst (p : List ℕ) (counts : List (List ℕ × ℕ)) :
    (counts.map (fun x => if x.1 = p then (x.1, x.2 + 1) else x)).map Prod.fst =
      counts.map Prod.fst := by
  rw [List.map_map]
  apply List.map_congr_left
  intro x hx
  by_cases h : x.1 = p <;> simp [h]

theorem bump_sum (p : List ℕ) :
    ∀ counts : List (List ℕ × ℕ), (counts.map Prod.fst).Nodup →
      p ∈ counts.map Prod.fst →
      countsSum (counts.map (fun x => if x.1 = p then (x.1, x.2 + 1) else x)) =
        countsSum counts + 1
  | [], _, hmem => by simp at hmem
  | x :: xs, hnd, hmem => by
    rw [List.map_cons, List.nodup_cons] at hnd
    by_cases hx : x.1 = p
    · have hnot : ∀ y ∈ xs, y.1 ≠ p := by
        intro y hy hyp
        exact hnd.1 (hx ▸ hyp ▸ List.mem_map_of_mem Prod.fst hy)
      simp only [List.map_cons, if_pos hx, countsSum, List.map_cons, List.sum_cons]
      rw [bump_map_id p xs hnot]
      omega
    · have hpm : p ∈ xs.map Prod.fst := by
        rcases List.mem_cons.1 hmem with h | h
        · exact absurd h.symm hx
        · exact h
      have ih := bump_sum p xs hnd.2 hpm
      simp only [List.map_cons, if_neg hx, countsSum, List.sum_cons] at ih ⊢
      omega

theorem addPattern_sum (counts : List (List ℕ × ℕ)) (p : List ℕ) (h : goodCounts counts) :
    countsSum (addPattern counts p) = countsSum counts + 1 := by
  unfold addPattern
  by_cases hmem : p ∈ counts.map Prod.fst
  · rw [if_pos hmem]
    exact bump_sum p counts h.1 hmem
  · rw [if_neg hmem]
    simp [countsSum]

theorem addPattern_good (counts : List (List ℕ × ℕ)) (p : List ℕ) (h : goodCounts counts) :
    goodCounts (addPattern counts p) := by
  unfold addPattern
  by_cases hmem : p ∈ counts.map Prod.fst
  · rw [if_pos hmem]
    refine ⟨by rw [bump_fst]; exact h.1, ?_⟩
    intro y hy
    rw [List.mem_map] at hy
    rcases hy with ⟨x, hx, rfl⟩
    by_cases hxp : x.1 = p <;> simp only [hxp, if_true, if_false]
    · simp
    · exact h.2 x hx
  · rw [if_neg hmem]
    constructor
    · rw [List.map_append, List.nodup_append]
      exact ⟨h.1, List.nodup_singleton p, by simpa using hmem⟩
    · intro y hy
      rcases List.mem_append.1 hy with hy | hy
      · exact h.2 y hy
      · simp at hy
        simp [hy]

theorem patternCountsLoop_spec (g : String) (hg : g.length = 5) :
    ∀ (sols : List String) (counts : List (List ℕ × ℕ)),
      (∀ s ∈ sols, s.length = 5) → goodCounts counts →
      ∃ final, patternCountsLoop g sols counts = some final ∧ goodCounts final ∧
        countsSum final = countsSum counts + sols.length
  | [], counts, _, hgood => ⟨counts, rfl, hgood, by simp⟩
  | s :: ss, counts, hs, hgood => by
    have h5 : s.length = 5 := hs s (List.mem_cons_self _ _)
    have hcf := compute_feedback_eq_feedback5 g s hg h5
    obtain ⟨final, hloop, hgood', hsum⟩ := patternCountsLoop_spec g hg ss
      (addPattern counts (feedback5 g.toList s.toList))
      (fun w hw => hs w (List.mem_cons_of_mem _ hw))
      (addPattern_good counts (feedback5 g.toList s.toList) hgood)
    refine ⟨final, ?_, hgood', ?_⟩
    · simpa [patternCountsLoop, hcf] using hloop
    · rw [hsum, addPattern_sum counts (feedback5 g.toList s.toList) hgood]
      simp
      omega

theorem calculate_entropy_some (g : String) (sols : List String) (hg : g.length = 5)
    (hs : ∀ s ∈ sols, s.length = 5) :
    ∃ counts, patternCountsLoop g sols [] = some counts ∧ goodCounts counts ∧
      countsSum counts = sols.length ∧
      calculate_entropy g sols = some (entropyOfCounts counts sols.length) := by
  obtain ⟨c, hl, hgood, hsum⟩ :=
    patternCountsLoop_spec g hg sols [] hs ⟨List.nodup_nil, by simp⟩
  exact ⟨c, hl, hgood, by simpa [countsSum] using hsum, by simp [calculate_entropy, hl]⟩

/-! ### Real-valued entropy lemmas -/

theorem foldl_sub_eq {α : Type} (f : α → ℝ) :
    ∀ (l : List α) (a : ℝ), l.foldl (fun e x => e - f x) a = a - (l.map f).sum
  | [], a => by simp
  | x :: xs, a => by
    rw [List.foldl_cons, foldl_sub_eq f xs (a - f x)]
    simp only [List.map_cons, List.sum_cons]
    ring

theorem entropyOfCounts_eq_neg_sum (counts : List (List ℕ × ℕ)) (total : ℕ) :
    entropyOfCounts counts total =
      -((counts.map fun x =>
          (x.2 : ℝ) / (total : ℝ) * Real.logb 2 ((x.2 : ℝ) / (total : ℝ))).sum) := by
  rw [entropyOfCounts, foldl_sub_eq]
  simp

theorem sum_map_sub {α : Type} (l : List α) (f h : α → ℝ) :
    (l.map fun x => f x - h x).sum = (l.map f).sum - (l.map h).sum := by
  induction l with
  | nil => simp
  | cons x xs ih =>
    simp only [List.map_cons, List.sum_cons, ih]
    ring

theorem sum_map_div {α : Type} (l : List α) (f : α → ℝ) (c : ℝ) :
    (l.map fun x => f x / c).sum = (l.map f).sum / c := by
  induction l with
  | nil => simp
  | cons x xs ih =>
    simp only [List.map_cons, List.sum_cons, ih]
    ring

theorem sum_map_mul_right {α : Type} (l : List α) (f : α → ℝ) (c : ℝ) :
    (l.map fun x => f x * c).sum = (l.map f).sum * c := by
  induction l with
  | nil => simp
  | cons x xs ih =>
    simp only [List.map_cons, List.sum_cons, ih]
    ring

theorem sum_cast_snd (counts : List (List ℕ × ℕ)) :
    (counts.map fun x => (x.2 : ℝ)).sum = (countsSum counts : ℝ) := by
  induction counts with
  | nil => simp [countsSum]
  | cons x xs ih =>
    simp only [List.map_cons, List.sum_cons, ih, countsSum]
    push_cast
    ring

/-- The histogram entropy in closed form:
`log2 n − (Σ count·log2 count) / n` when the bucket counts sum to `n`. -/
theorem entropyOfCounts_formula (counts : List (List ℕ × ℕ)) (n : ℕ)
    (hgood : goodCounts counts) (hsum : countsSum counts = n) (hn : 0 < n) :
    entropyOfCounts counts n =
      Real.logb 2 (n : ℝ) -
        (counts.map fun x => (x.2 : ℝ) * Real.logb 2 (x.2 : ℝ)).sum / (n : ℝ) := by
  have hnR : (0 : ℝ) < (n : ℝ) := by exact_mod_cast hn
  have hn' : (n : ℝ) ≠ 0 := ne_of_gt hnR
  rw [entropyOfCounts_eq_neg_sum]
  have hpt : counts.map (fun x => (x.2 : ℝ) / (n : ℝ) * Real.logb 2 ((x.2 : ℝ) / (n : ℝ))) =
      counts.map (fun x => (x.2 : ℝ) / (n : ℝ) * Real.logb 2 (x.2 : ℝ) -
        (x.2 : ℝ) / (n : ℝ) * Real.logb 2 (n : ℝ)) := by
    apply List.map_congr_left
    intro x hx
    have hx1 : 1 ≤ x.2 := hgood.2 x hx
    have hx0 : ((x.2 : ℝ)) ≠ 0 := by
      have : (0 : ℝ) < (x.2 : ℝ) := by exact_mod_cast hx1
      exact ne_of_gt this
    rw [Real.logb_div hx0 hn']
    ring
  rw [hpt, sum_map_sub]
  have hB : (counts.map fun x => (x.2 : ℝ) / (n : ℝ) * Real.logb 2 (n : ℝ)).sum =
      Real.logb 2 (n : ℝ) := by
    rw [sum_map_mul_right, sum_map_div, sum_cast_snd, hsum]
    field_simp
  have hA : (counts.map fun x => (x.2 : ℝ) / (n : ℝ) * Real.logb 2 (x.2 : ℝ)).sum =
      (counts.map fun x => (x.2 : ℝ) * Real.logb 2 (x.2 : ℝ)).sum / (n : ℝ) := by
    rw [← sum_map_div]
    apply congrArg List.sum
    apply List.map_congr_left
    intro x hx
    rw [div_mul_eq_mul_div]
  rw [hA, hB]
  ring

/-- C10: with an empty candidate list `calculate_entropy` returns 0 and no
error: the histogram stays empty, so no per-bucket division is ever
performed. -/
theorem C10_calculate_entropy_empty (g : String) :
    patternCountsLoop g [] [] = some [] ∧ calculate_entropy g [] = some 0 :=
  ⟨rfl, rfl⟩

/-- C7: for any five-letter guess and a singleton candidate list the
histogram is exactly one bucket of count 1 (no empty bucket exists) and
the entropy is exactly 0. -/
theorem C7_calculate_entropy_singleton (g c : String) (hg : g.length = 5)
    (hc : c.length = 5) :
    ∃ p, compute_feedback g c = some p ∧
      patternCountsLoop g [c] [] = some [(p, 1)] ∧
      calculate_entropy g [c] = some 0 := by
  have hcf := compute_feedback_eq_feedback5 g c hg hc
  have hloop : patternCountsLoop g [c] [] = some [(feedback5 g.toList c.toList, 1)] := by
    simp [patternCountsLoop, hcf, addPattern]
  refine ⟨feedback5 g.toList c.toList, hcf, hloop, ?_⟩
  rw [calculate_entropy]
  rw [hloop]
  show some (entropyOfCounts [(feedback5 g.toList c.toList, 1)] 1) = some 0
  rw [entropyOfCounts_eq_neg_sum]
  norm_num

theorem C7_calculate_entropy_singleton_witness :
    String.length "SOARE" = 5 ∧
    (∃ p, compute_feedback "SOARE" "ADIEU" = some p ∧
      patternCountsLoop "SOARE" ["ADIEU"] [] = some [(p, 1)] ∧
      calculate_entropy "SOARE" ["ADIEU"] = some 0) :=
  ⟨rfl, C7_calculate_entropy_singleton "SOARE" "ADIEU" rfl rfl⟩

/-- C8: for a five-letter guess and a non-empty list of five-letter
candidates, the entropy is at most `log2 n` (`n` the number of
candidates), with equality exactly when every histogram bucket has
count 1 (every candidate produces a distinct pattern). -/
theorem C8_calculate_entropy_le_log2 (g : String) (sols : List String)
    (hg : g.length = 5) (hs : ∀ s ∈ sols, s.length = 5) (hne : sols ≠ []) :
    ∃ counts, patternCountsLoop g sols [] = some counts ∧
      calculate_entropy g sols = some (entropyOfCounts counts sols.length) ∧
      entropyOfCounts counts sols.length ≤ Real.logb 2 (sols.length : ℝ) ∧
      (entropyOfCounts counts sols.length = Real.logb 2 (sols.length : ℝ) ↔
        ∀ x ∈ counts, x.2 = 1) := by
  obtain ⟨counts, hloop, hgood, hsum, hent⟩ := calculate_entropy_some g sols hg hs
  have hn : 0 < sols.length := List.length_pos.2 hne
  have hnR : (0 : ℝ) < (sols.length : ℝ) := by exact_mod_cast hn
  have hform := entropyOfCounts_formula counts sols.length hgood hsum hn
  have hterm_nonneg : ∀ y ∈ counts.map (fun x => (x.2 : ℝ) * Real.logb 2 (x.2 : ℝ)), 0 ≤ y := by
    intro y hy
    rw [List.mem_map] at hy
    obtain ⟨x, hx, rfl⟩ := hy
    have h1 : (1 : ℝ) ≤ (x.2 : ℝ) := by exact_mod_cast hgood.2 x hx
    exact mul_nonneg (by linarith) (Real.logb_nonneg (by norm_num) h1)
  have hSnon : 0 ≤ (counts.map (fun x => (x.2 : ℝ) * Real.logb 2 (x.2 : ℝ))).sum :=
    List.sum_nonneg hterm_nonneg
  refine ⟨counts, hloop, hent, ?_, ?_⟩
  · rw [hform]
    have : 0 ≤ (counts.map (fun x => (x.2 : ℝ) * Real.logb 2 (x.2 : ℝ))).sum /
        (sols.length : ℝ) := div_nonneg hSnon (le_of_lt hnR)
    linarith
  · rw [hform]
    constructor
    · intro heq
      have hS0 : (counts.map (fun x => (x.2 : ℝ) * Real.logb 2 (x.2 : ℝ))).sum = 0 := by
        have hdiv : (counts.map (fun x => (x.2 : ℝ) * Real.logb 2 (x.2 : ℝ))).sum /
            (sols.length : ℝ) = 0 := by linarith
        rcases div_eq_zero_iff.1 hdiv with h | h
        · exact h
        · exact absurd h (ne_of_gt hnR)
      intro x hx
      have hx1 : 1 ≤ x.2 := hgood.2 x hx
      by_contra hne2
      have hx2 : 2 ≤ x.2 := by omega
      have h2R : (1 : ℝ) < (x.2 : ℝ) := by exact_mod_cast by omega
      have hterm0 : (x.2 : ℝ) * Real.logb 2 (x.2 : ℝ) = 0 :=
        List.all_zero_of_le_zero_le_of_sum_eq_zero hterm_nonneg hS0
          (List.mem_map_of_mem _ hx)
      have hpos : 0 < (x.2 : ℝ) * Real.logb 2 (x.2 : ℝ) :=
        mul_pos (by linarith) (Real.logb_pos (by norm_num) h2R)
      rw [hterm0] at hpos
      exact lt_irrefl 0 hpos
    · intro hall
      have hz : counts.map (fun x => (x.2 : ℝ) * Real.logb 2 (x.2 : ℝ)) =
          counts.map (fun _ => (0 : ℝ)) := by
        apply List.map_congr_left
        intro x hx
        rw [hall x hx]
        simp [Real.logb_one]
      rw [hz]
      simp

theorem C8_calculate_entropy_le_log2_witness :
    (["AAAAA", "BBBBB"] : List String) ≠ [] ∧
    (∃ counts, patternCountsLoop "AAAAA" ["AAAAA", "BBBBB"] [] = some counts ∧
      calculate_entropy "AAAAA" ["AAAAA", "BBBBB"] =
        some (entropyOfCounts counts (["AAAAA", "BBBBB"] : List String).length) ∧
      entropyOfCounts counts (["AAAAA", "BBBBB"] : List String).length ≤
        Real.logb 2 ((["AAAAA", "BBBBB"] : List String).length : ℝ) ∧
      (entropyOfCounts counts (["AAAAA", "BBBBB"] : List String).length =
          Real.logb 2 ((["AAAAA", "BBBBB"] : List String).length : ℝ) ↔
        ∀ x ∈ counts, x.2 = 1)) :=
  ⟨by decide, C8_calculate_entropy_le_log2 "AAAAA" ["AAAAA", "BBBBB"] rfl (by decide)
    (by decide)⟩

/-! ### Facts about `filterConsistent`, entropy values and the selection
loop of `choice` -/

theorem is_consistent_defined :
    ∀ (guesses : List String) (fb : List (List ℕ)) (cand : String),
      cand.length = 5 → (∀ g ∈ guesses, g.length = 5) → guesses.length = fb.length →
      ∃ b, is_consistent cand guesses fb = some b
  | [], _, _, _, _, _ => ⟨true, rfl⟩
  | g :: gs, [], _, _, _, hlen => by simp at hlen
  | g :: gs, f :: fs, cand, hc, hg, hlen => by
    have hcf := compute_feedback_eq_feedback5 g cand (hg g (List.mem_cons_self _ _)) hc
    by_cases hne : feedback5 g.toList cand.toList ≠ f
    · refine ⟨false, ?_⟩
      simp only [is_consistent]
      rw [hcf]
      dsimp only
      rw [if_pos hne]
    · obtain ⟨b, hb⟩ := is_consistent_defined gs fs cand hc
        (fun w hw => hg w (List.mem_cons_of_mem _ hw)) (by simpa using hlen)
      refine ⟨b, ?_⟩
      simp only [is_consistent]
      rw [hcf]
      dsimp only
      rw [if_neg hne]
      exact hb

theorem filterConsistent_defined (guesses : List String) (fb : List (List ℕ))
    (hg5 : ∀ g ∈ guesses, g.length = 5) (hlen : guesses.length = fb.length) :
    ∀ vocab : List String, (∀ w ∈ vocab, w.length = 5) →
      ∃ l, filterConsistent guesses fb vocab = some l
  | [], _ => ⟨[], rfl⟩
  | w :: ws, hv => by
    obtain ⟨b, hb⟩ := is_consistent_defined guesses fb w (hv w (List.mem_cons_self _ _))
      hg5 hlen
    obtain ⟨l, hl⟩ := filterConsistent_defined guesses fb hg5 hlen ws
      (fun v hvv => hv v (List.mem_cons_of_mem _ hvv))
    exact ⟨if b then w :: l else l, by simp [filterConsistent, hb, hl]⟩

theorem filterConsistent_subset (guesses : List String) (fb : List (List ℕ)) :
    ∀ (vocab l : List String), filterConsistent guesses fb vocab = some l → l ⊆ vocab
  | [], l, h => by
    simp [filterConsistent] at h
    simp [← h]
  | w :: ws, l, h => by
    rw [filterConsistent] at h
    match hb : is_consistent w guesses fb with
    | none => rw [hb] at h; exact absurd h (by simp)
    | some b =>
      rw [hb] at h
      match hrest : filterConsistent guesses fb ws with
      | none => rw [hrest] at h; exact absurd h (by simp)
      | some rest =>
        rw [hrest] at h
        have hsub := filterConsistent_subset guesses fb ws rest hrest
        have : l = if b then w :: rest else rest := by
          have := Option.some.inj h
          exact this.symm
        subst this
        by_cases hbb : b = true
        · subst hbb
          simp only [if_true]
          intro v hv
          rcases List.mem_cons.1 hv with rfl | hv
          · exact List.mem_cons_self _ _
          · exact List.mem_cons_of_mem _ (hsub hv)
        · have : b = false := by simpa using hbb
          subst this
          simp only [Bool.false_eq_true, if_false]
          exact fun v hv => List.mem_cons_of_mem _ (hsub hv)

theorem filterConsistent_mem_of_consistent (guesses : List String) (fb : List (List ℕ)) :
    ∀ (vocab l : List String), filterConsistent guesses fb vocab = some l →
      ∀ w ∈ vocab, is_consistent w guesses fb = some true → w ∈ l
  | [], l, h, w, hw, _ => by simp at hw
  | v :: ws, l, h, w, hw, hcons => by
    rw [filterConsistent] at h
    match hb : is_consistent v guesses fb with
    | none => rw [hb] at h; exact absurd h (by simp)
    | some b =>
      rw [hb] at h
      match hrest : filterConsistent guesses fb ws with
      | none => rw [hrest] at h; exact absurd h (by simp)
      | some rest =>
        rw [hrest] at h
        have hl : l = if b then v :: rest else rest := (Option.some.inj h).symm
        subst hl
        rcases List.mem_cons.1 hw with rfl | hw
        · rw [hcons] at hb
          have : b = true := (Option.some.inj hb).symm
          subst this
          exact List.mem_cons_self _ _
        · have hmem := filterConsistent_mem_of_consistent guesses fb ws rest hrest w hw hcons
          by_cases hbb : b = true
          · subst hbb
            exact List.mem_cons_of_mem _ hmem
          · have : b = false := by simpa using hbb
            subst this
            simpa using hmem

theorem calculate_entropy_eq_entropyVal (g : String) (sols : List String)
    (hg : g.length = 5) (hs : ∀ s ∈ sols, s.length = 5) :
    calculate_entropy g sols = some (entropyVal g sols) := by
  obtain ⟨c, hl, _, _, hent⟩ := calculate_entropy_some g sols hg hs
  rw [hent, entropyVal, hent]
  rfl

theorem calculate_entropy_empty (g : String) :
    calculate_entropy g [] = some (entropyVal g []) := rfl

theorem entropyVal_empty (g : String) : entropyVal g [] = 0 := rfl

theorem list_sum_nonpos : ∀ l : List ℝ, (∀ x ∈ l, x ≤ 0) → l.sum ≤ 0
  | [], _ => by simp
  | x :: xs, h => by
    have hxs := list_sum_nonpos xs (fun y hy => h y (List.mem_cons_of_mem _ hy))
    have hx := h x (List.mem_cons_self _ _)
    rw [List.sum_cons]
    linarith

theorem entropyOfCounts_nonneg (counts : List (List ℕ × ℕ)) (n : ℕ)
    (hgood : goodCounts counts) (hsum : countsSum counts = n) :
    0 ≤ entropyOfCounts counts n := by
  match counts with
  | [] =>
    rw [entropyOfCounts_eq_neg_sum]
    simp
  | y :: ys =>
    have hn : 0 < n := by
      have h1 : 1 ≤ y.2 := hgood.2 y (List.mem_cons_self _ _)
      have : y.2 ≤ countsSum (y :: ys) :=
        List.single_le_sum (fun a _ => Nat.zero_le a) y.2
          (List.mem_map_of_mem Prod.snd (List.mem_cons_self _ _))
      omega
    have hnR : (0 : ℝ) < (n : ℝ) := by exact_mod_cast hn
    rw [entropyOfCounts_eq_neg_sum]
    have hterms : ∀ z ∈ (y :: ys).map
        (fun x => (x.2 : ℝ) / (n : ℝ) * Real.logb 2 ((x.2 : ℝ) / (n : ℝ))), z ≤ 0 := by
      intro z hz
      rw [List.mem_map] at hz
      obtain ⟨x, hx, rfl⟩ := hz
      have h1 : 1 ≤ x.2 := hgood.2 x hx
      have hle : x.2 ≤ n := by
        have : x.2 ≤ countsSum (y :: ys) :=
          List.single_le_sum (fun a _ => Nat.zero_le a) x.2
            (List.mem_map_of_mem Prod.snd hx)
        omega
      have hp0 : (0 : ℝ) < (x.2 : ℝ) / (n : ℝ) := by
        apply div_pos _ hnR
        exact_mod_cast h1
      have hp1 : (x.2 : ℝ) / (n : ℝ) ≤ 1 := by
        rw [div_le_one hnR]
        exact_mod_cast hle
      have hlb : Real.logb 2 ((x.2 : ℝ) / (n : ℝ)) ≤ 0 :=
        Real.logb_nonpos (by norm_num) (le_of_lt hp0) hp1
      exact mul_nonpos_iff.2 (Or.inl ⟨le_of_lt hp0, hlb⟩)
    have := list_sum_nonpos _ hterms
    linarith

theorem entropyVal_nonneg (g : String) (sols : List String)
    (hg : g.length = 5) (hs : ∀ s ∈ sols, s.length = 5) :
    0 ≤ entropyVal g sols := by
  obtain ⟨c, hl, hgood, hsum, hent⟩ := calculate_entropy_some g sols hg hs
  have hv : entropyVal g sols = entropyOfCounts c sols.length := by
    rw [entropyVal, hent]
    rfl
  rw [hv]
  exact entropyOfCounts_nonneg c sols.length hgood hsum

/-- The pure content of the selection loop once every entropy computation
is known to succeed: carry the best guess and best entropy, replacing them
only on a strict improvement. -/
noncomputable def runBest (f : String → ℝ) : List String → Option String → ℝ → Option String × ℝ
  | [], best_guess, best_entropy => (best_guess, best_entropy)
  | c :: cs, best_guess, best_entropy =>
    if f c > best_entropy then runBest f cs (some c) (f c)
    else runBest f cs best_guess best_entropy

theorem bestLoop_eq_runBest (sols : List String) :
    ∀ (pool : List String) (bg : Option String) (be : ℝ),
      (∀ c ∈ pool, calculate_entropy c sols = some (entropyVal c sols)) →
      bestLoop sols pool bg be = some (runBest (fun c => entropyVal c sols) pool bg be)
  | [], bg, be, _ => rfl
  | c :: cs, bg, be, h => by
    have hc := h c (List.mem_cons_self _ _)
    have ih := fun bg' be' => bestLoop_eq_runBest sols cs bg' be'
      (fun d hd => h d (List.mem_cons_of_mem _ hd))
    have hstep : bestLoop sols (c :: cs) bg be =
        if entropyVal c sols > be then bestLoop sols cs (some c) (entropyVal c sols)
        else bestLoop sols cs bg be := by
      simp [bestLoop, hc]
    simp only [runBest]
    rw [hstep]
    by_cases hgt : entropyVal c sols > be
    · rw [if_pos hgt, if_pos hgt, ih (some c) (entropyVal c sols)]
    · rw [if_neg hgt, if_neg hgt, ih bg be]

theorem runBest_stable (f : String → ℝ) :
    ∀ (pool : List String) (bg : Option String) (be : ℝ),
      (∀ c ∈ pool, f c ≤ be) → runBest f pool bg be = (bg, be)
  | [], _, _, _ => rfl
  | c :: cs, bg, be, h => by
    have hc : ¬ f c > be := not_lt.2 (h c (List.mem_cons_self _ _))
    rw [runBest, if_neg hc]
    exact runBest_stable f cs bg be (fun d hd => h d (List.mem_cons_of_mem _ hd))

/-- The selection loop returns the first word attaining the maximum score:
strictly greater than every earlier score, at least every later one. -/
theorem runBest_spec (f : String → ℝ) :
    ∀ (pool : List String) (bg : Option String) (be : ℝ),
      (∃ c ∈ pool, be < f c) →
      ∃ i, ∃ hi : i < pool.length,
        runBest f pool bg be = (some (pool.get ⟨i, hi⟩), f (pool.get ⟨i, hi⟩)) ∧
        be < f (pool.get ⟨i, hi⟩) ∧
        (∀ v ∈ pool.take i, f v < f (pool.get ⟨i, hi⟩)) ∧
        (∀ v ∈ pool, f v ≤ f (pool.get ⟨i, hi⟩))
  | [], bg, be, h => by simp at h
  | c :: cs, bg, be, h => by
    by_cases hgt : f c > be
    · by_cases hcs : ∃ d ∈ cs, f c < f d
      · obtain ⟨i, hi, heq, hbe, htake, hall⟩ := runBest_spec f cs (some c) (f c) hcs
        refine ⟨i + 1, Nat.succ_lt_succ hi, ?_, ?_, ?_, ?_⟩
        · rw [runBest, if_pos hgt, heq]
          simp
        · simp only [List.get_cons_succ]
          exact lt_trans hgt hbe
        · intro v hv
          rw [List.take_succ_cons, List.mem_cons] at hv
          simp only [List.get_cons_succ]
          rcases hv with rfl | hv
          · exact hbe
          · exact htake v hv
        · intro v hv
          simp only [List.get_cons_succ]
          rcases List.mem_cons.1 hv with rfl | hv
          · exact le_of_lt hbe
          · exact hall v hv
      · push_neg at hcs
        refine ⟨0, Nat.succ_pos _, ?_, hgt, by simp, ?_⟩
        · rw [runBest, if_pos hgt, runBest_stable f cs (some c) (f c) hcs]
          simp
        · intro v hv
          rcases List.mem_cons.1 hv with rfl | hv
          · simp
          · simpa using hcs v hv
    · have hex : ∃ d ∈ cs, be < f d := by
        obtain ⟨d, hd, hbd⟩ := h
        rcases List.mem_cons.1 hd with rfl | hd
        · exact absurd hbd hgt
        · exact ⟨d, hd, hbd⟩
      obtain ⟨i, hi, heq, hbe, htake, hall⟩ := runBest_spec f cs bg be hex
      have hfc : f c ≤ be := not_lt.1 hgt
      refine ⟨i + 1, Nat.succ_lt_succ hi, ?_, ?_, ?_, ?_⟩
      · rw [runBest, if_neg hgt, heq]
        simp
      · simp only [List.get_cons_succ]
        exact hbe
      · intro v hv
        rw [List.take_succ_cons, List.mem_cons] at hv
        simp only [List.get_cons_succ]
        rcases hv with rfl | hv
        · exact lt_of_le_of_lt hfc hbe
        · exact htake v hv
      · intro v hv
        simp only [List.get_cons_succ]
        rcases List.mem_cons.1 hv with rfl | hv
        · exact le_of_lt (lt_of_le_of_lt hfc hbe)
        · exact hall v hv

theorem choice_of_filter (vocab guesses : List String) (fb : List (List ℕ))
    (possible : List String) (hg : guesses ≠ [])
    (hfc : filterConsistent guesses fb vocab = some possible) :
    choice vocab guesses fb =
      (if possible.length = 1 then some possible.head?
       else
         match bestLoop possible (if guesses.length < 5 then vocab else possible)
             none (-1) with
         | none => none
         | some (best_guess, _) => some best_guess) := by
  cases guesses with
  | nil => exact absurd rfl hg
  | cons a as =>
    show (match filterConsistent (a :: as) fb vocab with
      | none => none
      | some possible_solutions =>
        if possible_solutions.length = 1 then some possible_solutions.head?
        else
          match bestLoop possible_solutions
              (if (a :: as).length < 5 then vocab else possible_solutions) none (-1) with
          | none => none
          | some (best_guess, _) => some best_guess) = _
    rw [hfc]

theorem choice_singleton (vocab guesses : List String) (fb : List (List ℕ)) (w : String)
    (hg : guesses ≠ []) (hfc : filterConsistent guesses fb vocab = some [w]) :
    choice vocab guesses fb = some (some w) := by
  rw [choice_of_filter vocab guesses fb [w] hg hfc]
  simp

theorem choice_scoring (vocab guesses : List String) (fb : List (List ℕ))
    (possible : List String) (hg : guesses ≠ [])
    (hfc : filterConsistent guesses fb vocab = some possible)
    (h1 : possible.length ≠ 1) :
    choice vocab guesses fb =
      (match bestLoop possible (if guesses.length < 5 then vocab else possible)
          none (-1) with
       | none => none
       | some (best_guess, _) => some best_guess) := by
  rw [choice_of_filter vocab guesses fb possible hg hfc, if_neg h1]

theorem runBest_zero_fst (f : String → ℝ) (hf : ∀ c, f c = 0) :
    ∀ pool : List String, (runBest f pool none (-1)).1 = pool.head?
  | [] => rfl
  | c :: cs => by
    rw [runBest, hf c, if_pos (by norm_num : (0 : ℝ) > -1),
      runBest_stable f cs (some c) 0 (fun d _ => le_of_eq (hf d))]
    rfl

/-- With an empty consistent-candidate set and fewer than five prior
guesses, `choice` scores the whole vocabulary, every entropy is 0, and
the strict-improvement loop keeps the first vocabulary word (or Python
`None` for an empty vocabulary). -/
theorem choice_empty_possible_lt5 (vocab guesses : List String) (fb : List (List ℕ))
    (hg : guesses ≠ []) (hfc : filterConsistent guesses fb vocab = some [])
    (hlt : guesses.length < 5) :
    choice vocab guesses fb = some vocab.head? := by
  rw [choice_scoring vocab guesses fb [] hg hfc (by simp), if_pos hlt,
    bestLoop_eq_runBest [] vocab none (-1) (fun c _ => calculate_entropy_empty c)]
  have hfst := runBest_zero_fst (fun c => entropyVal c []) (fun c => entropyVal_empty c) vocab
  rw [← hfst]

/-- With an empty consistent-candidate set and five or more prior guesses,
the scored pool is the empty candidate set itself, the loop body never
runs, and `choice` returns Python `None`. -/
theorem choice_empty_possible_ge5 (vocab guesses : List String) (fb : List (List ℕ))
    (hg : guesses ≠ []) (hfc : filterConsistent guesses fb vocab = some [])
    (hge : 5 ≤ guesses.length) :
    choice vocab guesses fb = some none := by
  rw [choice_scoring vocab guesses fb [] hg hfc (by simp), if_neg (by omega)]
  rfl

/-- C3 counterexample: the claim "choice fails by signaling an
EmptySolutionSpace error rather than returning a guess" is false on the
code: on a history no vocabulary word is consistent with
(`filterConsistent … = some []`), `choice` still returns the first
vocabulary word. -/
theorem C3_counterexample :
    filterConsistent ["AAAAA"] [[0, 0, 0, 0, 0]] ["AAAAA", "AAAAB"] = some [] ∧
    choice ["AAAAA", "AAAAB"] ["AAAAA"] [[0, 0, 0, 0, 0]] = some (some "AAAAA") := by
  refine ⟨by decide, ?_⟩
  rw [choice_empty_possible_lt5 ["AAAAA", "AAAAB"] ["AAAAA"] [[0, 0, 0, 0, 0]]
    (by simp) (by decide) (by decide)]
  rfl

/-- C3 (amended): `choice` never signals an empty-solution-space error.
With a non-empty history whose filtered candidate set is empty, it
returns the first vocabulary word when fewer than five guesses were made
(all entropies are 0 and the first strict improvement over `-1` wins),
and it returns Python `None` (an empty scored pool) when five or more
guesses were made. -/
theorem C3_choice_empty_solution_space (vocab guesses : List String) (fb : List (List ℕ))
    (hg : guesses ≠ []) (hfc : filterConsistent guesses fb vocab = some []) :
    (guesses.length < 5 → choice vocab guesses fb = some vocab.head?) ∧
    (5 ≤ guesses.length → choice vocab guesses fb = some none) :=
  ⟨fun hlt => choice_empty_possible_lt5 vocab guesses fb hg hfc hlt,
   fun hge => choice_empty_possible_ge5 vocab guesses fb hg hfc hge⟩

theorem C3_choice_empty_solution_space_witness :
    filterConsistent ["CCCCC"] [[1, 1, 1, 1, 1]] ["CCCCC"] = some [] ∧
    choice ["CCCCC"] ["CCCCC"] [[1, 1, 1, 1, 1]] = some (["CCCCC"] : List String).head? :=
  ⟨by decide,
    (C3_choice_empty_solution_space ["CCCCC"] ["CCCCC"] [[1, 1, 1, 1, 1]]
      (by simp) (by decide)).1 (by decide)⟩

/-- C2 counterexample: the claim "the word returned by choice is always a
member of the supplied vocabulary, including on turn 0" is false on the
code: with an empty history it returns the hard-coded opener `"SOARE"`
even when the vocabulary does not contain it. -/
theorem C2_counterexample :
    choice ["AAAAA"] [] [] = some (some "SOARE") ∧
    "SOARE" ∉ (["AAAAA"] : List String) :=
  ⟨rfl, by decide⟩

/-- C2 (amended): with a non-empty history of five-letter guesses over a
non-empty vocabulary of five-letter words (feedback index-aligned), the
word returned by `choice` is a member of the vocabulary provided fewer
than five guesses were made or at least one vocabulary word is consistent
with the history.  (On turn 0 the code returns the fixed word `"SOARE"`
whether or not it belongs to the vocabulary, and with five or more
guesses and no consistent word it returns Python `None`.) -/
theorem C2_choice_membership (vocab guesses : List String) (fb : List (List ℕ))
    (hg : guesses ≠ []) (hlen : guesses.length = fb.length)
    (hv5 : ∀ w ∈ vocab, w.length = 5) (hg5 : ∀ g ∈ guesses, g.length = 5)
    (hvne : vocab ≠ [])
    (hcase : guesses.length < 5 ∨ ∃ w ∈ vocab, is_consistent w guesses fb = some true) :
    ∃ w ∈ vocab, choice vocab guesses fb = some (some w) := by
  obtain ⟨possible, hfc⟩ := filterConsistent_defined guesses fb hg5 hlen vocab hv5
  have hsub : possible ⊆ vocab := filterConsistent_subset guesses fb vocab possible hfc
  have hp5 : ∀ w ∈ possible, w.length = 5 := fun w hw => hv5 w (hsub hw)
  by_cases h1 : possible.length = 1
  · obtain ⟨w, hw⟩ := List.length_eq_one.1 h1
    subst hw
    exact ⟨w, hsub (List.mem_cons_self _ _),
      choice_singleton vocab guesses fb w hg hfc⟩
  · set pool := if guesses.length < 5 then vocab else possible with hpool
    have hpool5 : ∀ w ∈ pool, w.length = 5 := by
      intro w hw
      by_cases hlt : guesses.length < 5
      · rw [hpool, if_pos hlt] at hw
        exact hv5 w hw
      · rw [hpool, if_neg hlt] at hw
        exact hp5 w hw
    have hpoolsub : pool ⊆ vocab := by
      intro w hw
      by_cases hlt : guesses.length < 5
      · rw [hpool, if_pos hlt] at hw
        exact hw
      · rw [hpool, if_neg hlt] at hw
        exact hsub hw
    have hpoolne : pool ≠ [] := by
      by_cases hlt : guesses.length < 5
      · rw [hpool, if_pos hlt]
        exact hvne
      · rw [hpool, if_neg hlt]
        rcases hcase with hlt' | ⟨w, hwv, hwc⟩
        · exact absurd hlt' hlt
        · have hmem := filterConsistent_mem_of_consistent guesses fb vocab possible hfc
            w hwv hwc
          exact fun hempty => by
            rw [hempty] at hmem
            exact List.not_mem_nil w hmem
    have hents : ∀ c ∈ pool, calculate_entropy c possible = some (entropyVal c possible) :=
      fun c hc => calculate_entropy_eq_entropyVal c possible (hpool5 c hc) hp5
    have hex : ∃ c ∈ pool, (-1 : ℝ) < entropyVal c possible := by
      obtain ⟨c, hc⟩ := List.exists_mem_of_ne_nil pool hpoolne
      exact ⟨c, hc, lt_of_lt_of_le (by norm_num)
        (entropyVal_nonneg c possible (hpool5 c hc) hp5)⟩
    obtain ⟨i, hi, heq, _, _, _⟩ :=
      runBest_spec (fun c => entropyVal c possible) pool none (-1) hex
    refine ⟨pool.get ⟨i, hi⟩, hpoolsub (pool.get_mem i hi), ?_⟩
    rw [choice_scoring vocab guesses fb possible hg hfc h1, ← hpool,
      bestLoop_eq_runBest possible pool none (-1) hents, heq]

theorem C2_choice_membership_witness :
    (["AAAAA", "BBBBB"] : List String) ≠ [] ∧
    (∃ w ∈ (["AAAAA", "BBBBB"] : List String),
      choice ["AAAAA", "BBBBB"] ["AAAAA"] [[2, 2, 2, 2, 2]] = some (some w)) :=
  ⟨by decide, C2_choice_membership ["AAAAA", "BBBBB"] ["AAAAA"] [[2, 2, 2, 2, 2]]
    (by simp) rfl (by decide) (by decide) (by simp) (Or.inl (by decide))⟩

/-- C5: whenever `choice` scores by entropy (non-empty history, more than
one consistent candidate), the scored pool is the entire vocabulary when
fewer than five guesses were made and the consistent-candidate set
otherwise, and the returned word is the first word of that pool (in pool
order) whose entropy over the candidate set is strictly greater than
every earlier word's entropy and at least every later word's entropy
(strict `>` improvement; the first word attaining the maximum wins
ties). -/
theorem C5_choice_first_max_entropy (vocab guesses : List String) (fb : List (List ℕ))
    (possible pool : List String)
    (hg : guesses ≠ []) (hv5 : ∀ w ∈ vocab, w.length = 5)
    (hfc : filterConsistent guesses fb vocab = some possible)
    (hmore : 1 < possible.length)
    (hpool : pool = if guesses.length < 5 then vocab else possible) :
    ∃ i, ∃ hi : i < pool.length,
      choice vocab guesses fb = some (some (pool.get ⟨i, hi⟩)) ∧
      (∀ v ∈ pool.take i,
        entropyVal v possible < entropyVal (pool.get ⟨i, hi⟩) possible) ∧
      (∀ v ∈ pool, entropyVal v possible ≤ entropyVal (pool.get ⟨i, hi⟩) possible) := by
  have hsub : possible ⊆ vocab := filterConsistent_subset guesses fb vocab possible hfc
  have hp5 : ∀ w ∈ possible, w.length = 5 := fun w hw => hv5 w (hsub hw)
  have hpne : possible ≠ [] := by
    intro hempty
    rw [hempty] at hmore
    simp at hmore
  have hvne : vocab ≠ [] := by
    obtain ⟨w, hw⟩ := List.exists_mem_of_ne_nil possible hpne
    exact List.ne_nil_of_mem (hsub hw)
  have hpool5 : ∀ w ∈ pool, w.length = 5 := by
    intro w hw
    by_cases hlt : guesses.length < 5
    · rw [hpool, if_pos hlt] at hw
      exact hv5 w hw
    · rw [hpool, if_neg hlt] at hw
      exact hp5 w hw
  have hpoolne : pool ≠ [] := by
    by_cases hlt : guesses.length < 5
    · rw [hpool, if_pos hlt]
      exact hvne
    · rw [hpool, if_neg hlt]
      exact hpne
  have hents : ∀ c ∈ pool, calculate_entropy c possible = some (entropyVal c possible) :=
    fun c hc => calculate_entropy_eq_entropyVal c possible (hpool5 c hc) hp5
  have hex : ∃ c ∈ pool, (-1 : ℝ) < entropyVal c possible := by
    obtain ⟨c, hc⟩ := List.exists_mem_of_ne_nil pool hpoolne
    exact ⟨c, hc, lt_of_lt_of_le (by norm_num)
      (entropyVal_nonneg c possible (hpool5 c hc) hp5)⟩
  obtain ⟨i, hi, heq, _, htake, hall⟩ :=
    runBest_spec (fun c => entropyVal c possible) pool none (-1) hex
  refine ⟨i, hi, ?_, htake, hall⟩
  rw [choice_scoring vocab guesses fb possible hg hfc (by omega), ← hpool,
    bestLoop_eq_runBest possible pool none (-1) hents, heq]

theorem C5_choice_first_max_entropy_witness :
    filterConsistent ["BBBBB"] [[0, 0, 0, 0, 0]] ["AAAAA", "CCCCC", "BBBBB"] =
      some ["AAAAA", "CCCCC"] ∧
    (∃ i, ∃ hi : i < (["AAAAA", "CCCCC", "BBBBB"] : List String).length,
      choice ["AAAAA", "CCCCC", "BBBBB"] ["BBBBB"] [[0, 0, 0, 0, 0]] =
        some (some ((["AAAAA", "CCCCC", "BBBBB"] : List String).get ⟨i, hi⟩)) ∧
      (∀ v ∈ (["AAAAA", "CCCCC", "BBBBB"] : List String).take i,
        entropyVal v ["AAAAA", "CCCCC"] <
          entropyVal ((["AAAAA", "CCCCC", "BBBBB"] : List String).get ⟨i, hi⟩)
            ["AAAAA", "CCCCC"]) ∧
      (∀ v ∈ (["AAAAA", "CCCCC", "BBBBB"] : List String),
        entropyVal v ["AAAAA", "CCCCC"] ≤
          entropyVal ((["AAAAA", "CCCCC", "BBBBB"] : List String).get ⟨i, hi⟩)
            ["AAAAA", "CCCCC"])) :=
  ⟨by decide, C5_choice_first_max_entropy ["AAAAA", "CCCCC", "BBBBB"] ["BBBBB"]
    [[0, 0, 0, 0, 0]] ["AAAAA", "CCCCC"] ["AAAAA", "CCCCC", "BBBBB"]
    (by simp) (by decide) (by decide) (by decide) rfl⟩

example : compute_feedback "ADIEU" "DIALS" = some [1, 1, 1, 0, 0] := by decide
example : compute_feedback "ROBOT" "BOUND" = some [0, 2, 1, 0, 0] := by decide
example : compute_feedback "ABCDEF" "ABCDE" = some [2, 2, 2, 2, 2] := by decide
example : compute_feedback "AAAA" "AAAAA" = none := by decide
example : get_feedback "ABC" "XYZ" = Except.ok [0, 0, 0] := rfl
example : get_feedback "ADIEU" "DIALS" = Except.ok [1, 1, 1, 0, 0] := rfl
example : get_feedback "TEST" "TESTS" = Except.error "length of inputs must be equal" := rfl
example : is_consistent "DIALS" ["ADIEU"] [[1, 1, 1, 0, 0]] = some true := by decide
example : is_consistent "DIALS" ["ADIEU"] [[1, 1, 0, 0, 0]] = some false := by decide

end Wordle
